import Mathlib

set_option allowUnsafeReducibility true

attribute [semireducible] Rat.add Rat.mul Rat.sub Rat.inv

/-!
Verification development for the GC bias tabulation engine of
src/deeptools/computeGCBias_readlen.py.

Conventions of the shallow embedding:
* genomic coordinates and fragment lengths are integers;
* numpy integer histograms become lists of naturals;
* Python dicts keyed by str(fragmentLength) become association lists where
  insertion order matters (the worker output) and key indexed partial maps
  where only lookup matters (the merged tables, since Python dict equality
  ignores insertion order);
* external collaborators (py2bit, pysam, interval trees, the numpy random
  generator) are oracle fields of an environment structure;
* a Python function that can raise becomes an Except valued function.
-/

namespace ComputeGCBias

/-- Result of the Python expression round(x, 2): x rounded to two decimal
places. Exact ties go to the nearest even hundredth in Python floats in a
representation dependent way; Mathlib round is used here and no claim
depends on the tie direction. -/
def round2dec (x : ℚ) : ℚ := (round (x * 100) : ℤ) / 100

/-- Model of rng.binomial(1, p) from numpy: one Bernoulli trial. The random
draw is an oracle bit; a trial with success probability 0 returns 0 surely. -/
def binomial1 (p : ℚ) (bit : Bool) : ℤ :=
  if p = 0 then 0 else if bit then 1 else 0

/-- roundGCLenghtBias from the source (name kept including the typo):
gc_frac, gc_int = math.modf(round(gc * 100, 2));
gc_new = gc_int + rng.binomial(1, gc_frac); return int(gc_new).
For the nonnegative arguments produced by the worker, math.modf splits its
argument into integer part (floor) and fractional part. -/
def roundGCLenghtBias (gc : ℚ) (bit : Bool) : ℤ :=
  let v := round2dec (gc * 100)
  let gc_int : ℤ := ⌊v⌋
  let gc_frac : ℚ := v - gc_int
  gc_int + binomial1 gc_frac bit

/-- Number of elements of np.arange(start, stop, step) for positive step. -/
def arangeLen (start stop step : ℤ) : ℕ :=
  if start < stop then (((stop - start - 1) / step) + 1).toNat else 0

/-- np.arange(start, stop, step) on integers with positive step. -/
def aRange (start stop step : ℤ) : List ℤ :=
  (List.range (arangeLen start stop step)).map (fun k => start + k * step)

/-- Insert a value into an ascending duplicate free list, keeping it so. -/
def insertSorted (x : ℤ) : List ℤ → List ℤ
  | [] => [x]
  | y :: ys =>
      if x < y then x :: y :: ys
      else if x = y then y :: ys
      else y :: insertSorted x ys

/-- np.unique: sort ascending and drop duplicate values. -/
def npUnique (l : List ℤ) : List ℤ := l.foldr insertSorted []

/-- An interval tree oracle standing for GTF.findOverlaps(chrom, start, end).
A missing chromosome raises KeyError in the source, modelled as none; the
caller catches KeyError and proceeds with an empty overlap list. -/
def IntervalTree : Type := String → ℤ → ℤ → Option (List (ℤ × ℤ))

/-- The fields of the global_vars dictionary used by the sampling code. -/
structure Config where
  filter_out : Option IntervalTree
  extra_sampling_file : Option IntervalTree

/-- getPositionsToSample from the source: arithmetic stride positions over
the interval, augmented by extra sampling intervals (then sorted and
deduplicated), then pruned by the exclude intervals. -/
def getPositionsToSample (cfg : Config) (chrom : String)
    (start stop stepSize : ℤ) : List ℤ :=
  let positions_to_sample := aRange start stop stepSize
  let positions_to_sample :=
    match cfg.extra_sampling_file with
    | none => positions_to_sample
    | some extra_tree =>
        let extra_match := (extra_tree chrom start stop).getD []
        let positions_to_sample := extra_match.foldl
          (fun ps intval => ps ++ aRange intval.1 intval.2 stepSize)
          positions_to_sample
        npUnique positions_to_sample
  match cfg.filter_out with
  | none => positions_to_sample
  | some filter_out_tree =>
      let out_match := (filter_out_tree chrom start stop).getD []
      out_match.foldl
        (fun ps intval =>
          ps.filter (fun p => decide (p < intval.1) || decide (intval.2 ≤ p)))
        positions_to_sample

/-- One aligned read as seen by the worker loop: the pysam fields the loop
reads. query_length is a nonnegative read length. -/
structure BamRead where
  pos : ℤ
  is_proper_pair : Bool
  is_paired : Bool
  next_reference_start : ℤ
  template_length : ℤ
  query_length : ℕ
deriving DecidableEq

/-- The r_len computation of the worker loop body for a read fetched at a
sampling position (the read already satisfies read.pos == i when the value
is compared against the fragment length, see countReadsAt). -/
def r_len (read : BamRead) : ℤ :=
  if read.is_proper_pair && decide (read.pos < read.next_reference_start) then
    |read.template_length|
  else if !read.is_paired then (read.query_length : ℤ)
  else 0

/-- Oracles for the external collaborators consulted by the worker:
chromosome lengths (tbit.chroms), GC fraction of an interval
(getGC_content, none models a raised exception), read fetch at a single
position (bam.fetch(chrom, i, i + 1)), the random bit consumed by the
stochastic rounding at a given fragment length and position, and the
Poisson derived per length read cap (a float in the source). -/
structure WorkerEnv where
  chroms : String → ℤ
  getGC_content : String → ℤ → ℤ → Option ℚ
  fetch : String → ℤ → ℤ → List BamRead
  randBit : ℤ → ℤ → Bool
  max_reads : ℤ → ℚ

/-- Count of reads fetched at position i that start exactly at i and whose
r_len equals the fragment length (num_reads in the source). -/
def countReadsAt (env : WorkerEnv) (chromNameBam : String)
    (i fragmentLength : ℤ) : ℕ :=
  ((env.fetch chromNameBam i (i + 1)).filter
    (fun read => decide (read.pos = i) && decide (r_len read = fragmentLength))).length

/-- State threaded through the position loop of the worker: the two
histograms for the current fragment length and the peak counter. -/
structure LoopState where
  sub_n_gc : List ℕ
  subF_gc : List ℕ
  peak : ℕ
deriving DecidableEq

/-- Body of the position loop for one sampling position i: compute the GC
fraction (skipping the position when the lookup raises), stochastically
round it to a bin, count the reads at i, then either bump the peak counter
(cap reached) or add the contributions to both histograms. -/
def processPosition (env : WorkerEnv) (chromNameBam chromNameBit : String)
    (fragmentLength : ℤ) (st : LoopState) (i : ℤ) : LoopState :=
  match env.getGC_content chromNameBit i (i + fragmentLength) with
  | none => st
  | some gcFrac =>
      let gc := (roundGCLenghtBias gcFrac (env.randBit fragmentLength i)).toNat
      let num_reads := countReadsAt env chromNameBam i fragmentLength
      if env.max_reads fragmentLength ≤ (num_reads : ℚ) then
        { st with peak := st.peak + 1 }
      else
        { st with
          sub_n_gc := st.sub_n_gc.set gc (st.sub_n_gc.getD gc 0 + 1),
          subF_gc := st.subF_gc.set gc (st.subF_gc.getD gc 0 + num_reads) }

/-- The position loop of the worker, including the boundary guard that
breaks out as soon as a position plus the fragment length would run past
the chromosome end. -/
def positionLoop (env : WorkerEnv) (chromNameBam chromNameBit : String)
    (fragmentLength : ℤ) : LoopState → List ℤ → LoopState
  | st, [] => st
  | st, i :: rest =>
      if env.chroms chromNameBit < i + fragmentLength then st
      else
        positionLoop env chromNameBam chromNameBit fragmentLength
          (processPosition env chromNameBam chromNameBit fragmentLength st i) rest

/-- Errors the worker can raise: the NameError on a malformed range and the
KeyError of the chromosome name translation lookup. -/
inductive WorkerError where
  | invalidRange : WorkerError
  | keyError : WorkerError
deriving DecidableEq

/-- One iteration of the fragment length loop of the worker: sample
positions over the chunk with the fragment length reserved at the end, run
the position loop on fresh 101 bin histograms (threading the peak counter
through the accumulator), and record both histograms under the decimal
string key str(fragmentLength). -/
def fragmentStep (env : WorkerEnv) (cfg : Config)
    (chromNameBam chromNameBit : String) (start stop stepSize : ℤ)
    (acc : List (String × List ℕ) × List (String × List ℕ) × ℕ)
    (fragmentLength : ℤ) :
    List (String × List ℕ) × List (String × List ℕ) × ℕ :=
  let positions_to_sample :=
    getPositionsToSample cfg chromNameBit start (stop - fragmentLength) stepSize
  let st := positionLoop env chromNameBam chromNameBit fragmentLength
    ⟨List.replicate 101 0, List.replicate 101 0, acc.2.2⟩ positions_to_sample
  (acc.1 ++ [(toString fragmentLength, st.sub_n_gc)],
   acc.2.1 ++ [(toString fragmentLength, st.subF_gc)],
   st.peak)

/-- The fragment length loop of the worker once the guards have passed. -/
def tabulateGCcontent_worker_core (env : WorkerEnv) (cfg : Config)
    (chromNameBam chromNameBit : String) (start stop stepSize : ℤ)
    (fragmentLengths : List ℤ) :
    List (String × List ℕ) × List (String × List ℕ) × ℕ :=
  fragmentLengths.foldl
    (fragmentStep env cfg chromNameBam chromNameBit start stop stepSize)
    ([], [], 0)

/-- tabulateGCcontent_worker from the source: raises on start > end, looks
the BAM chromosome name up in the name translation dict (KeyError when
missing), then tabulates every fragment length and returns the two dicts
sub_Ndict and sub_Fdict as association lists in insertion order. -/
def tabulateGCcontent_worker (env : WorkerEnv) (cfg : Config)
    (chromNameBam : String) (start stop stepSize : ℤ)
    (fragmentLengths : List ℤ) (chrNameBamToBit : String → Option String) :
    Except WorkerError (List (String × List ℕ) × List (String × List ℕ)) :=
  if stop < start then .error .invalidRange
  else
    match chrNameBamToBit chromNameBam with
    | none => .error .keyError
    | some chromNameBit =>
        let res := tabulateGCcontent_worker_core env cfg chromNameBam chromNameBit
          start stop stepSize fragmentLengths
        .ok (res.1, res.2.1)

/-- Lookup view of a worker result dict (association list built with
distinct keys), the way Python dict indexing sees it. -/
def alGet (al : List (String × List ℕ)) : String → Option (List ℕ) :=
  fun k => (al.find? (fun p => p.1 == k)).map (fun p => p.2)

/-- Elementwise sum of two numpy count arrays of equal length. -/
def addHist (a b : List ℕ) : List ℕ := List.zipWith (· + ·) a b

/-- One reduce step of tabulateGCcontent: the dict comprehension over the
union of the key sets, adding the values and using 0 (absorbed by numpy
array addition) for a missing key. -/
def mergeDicts (d1 d2 : String → Option (List ℕ)) : String → Option (List ℕ) :=
  fun k =>
    match d1 k, d2 k with
    | none, none => none
    | some a, none => some a
    | none, some b => some b
    | some a, some b => some (addHist a b)

/-- A chunk descriptor produced by the mapReduce scheduler. -/
structure Chunk where
  chrom : String
  start : ℤ
  stop : ℤ
deriving DecidableEq

/-- The map and reduce phases of tabulateGCcontent: run the worker on every
chunk (any worker exception aborts the whole run) and fold the two merge
comprehensions over the per chunk results, starting from empty dicts. -/
def tabulateGCcontent (env : WorkerEnv) (cfg : Config) (stepSize : ℤ)
    (fragmentLengths : List ℤ) (chrNameBamToBit : String → Option String)
    (chunks : List Chunk) :
    Except WorkerError
      ((String → Option (List ℕ)) × (String → Option (List ℕ))) := do
  let results ← chunks.mapM (fun c =>
    tabulateGCcontent_worker env cfg c.chrom c.start c.stop stepSize
      fragmentLengths chrNameBamToBit)
  let merged := results.foldl
    (fun acc r => (mergeDicts acc.1 (alGet r.1), mergeDicts acc.2 (alGet r.2)))
    ((fun _ => none), (fun _ => none))
  return merged

/-- Error raised inside get_ratio: Python float division at the scaling
loop raises ZeroDivisionError when an Observed row sums to zero (the numpy
seterr suppression does not apply to Python float scalars). -/
inductive RatioError where
  | zeroDivision : RatioError
deriving DecidableEq

/-- Per length scaling factor of get_ratio:
float(np.sum(n_tmp)) / float(np.sum(f_tmp)). This is Python float
division, which raises ZeroDivisionError on a zero denominator. -/
def scaling_of (n_tmp f_tmp : List ℕ) : Except RatioError ℚ :=
  if (f_tmp.sum : ℚ) = 0 then .error .zeroDivision
  else .ok ((n_tmp.sum : ℚ) / (f_tmp.sum : ℚ))

/-- One row of the ratio table of get_ratio (direct mode): for each column
x in range(len(f_gc_t)), the ratio float(f_gc_t[x]) / n_gc_t[x] * scaling
when n_gc_t[x] is truthy and f_gc_t[x] > 0, and 1 otherwise (the division
here is guarded by the conditional expression, so it never divides by
zero). -/
def ratio_row (n_gc_t f_gc_t : List ℕ) (scaling : ℚ) : List ℚ :=
  (List.range f_gc_t.length).map
    (fun x =>
      if n_gc_t.getD x 0 ≠ 0 ∧ 0 < f_gc_t.getD x 0 then
        (f_gc_t.getD x 0 : ℚ) / (n_gc_t.getD x 0 : ℚ) * scaling
      else 1)

/-- get_ratio from the source, over the merged table rows: the row index
list and the two row maps stand for the N_gc and F_gc blocks of the
DataFrame. The first loop fills scaling_dict for every row and aborts the
whole call on the first zero Observed row sum; only then does the second
loop build a ratio row per fragment length, reading scaling_dict[i]. -/
def get_ratio (lengths : List ℤ) (N_GC F_GC : ℤ → List ℕ) :
    Except RatioError (List (ℤ × List ℚ)) := do
  let scaling_dict ← lengths.mapM
    (fun i => (scaling_of (N_GC i) (F_GC i)).map (fun s => (i, s)))
  return lengths.map
    (fun i =>
      let scaling := (scaling_dict.lookup i).getD 0
      (i, ratio_row (N_GC i) (F_GC i) scaling))

/-- Truncation toward zero, the int() conversion applied to a float. -/
def truncQ (q : ℚ) : ℤ := if 0 ≤ q then ⌊q⌋ else ⌈q⌉

/-- Error raised by int() on a nonfinite float: with a zero denominator the
division yields inf (OverflowError on conversion) or nan (ValueError). -/
inductive InterpError where
  | intConversion : InterpError
deriving DecidableEq

/-- One iteration of the scaling loop of interpolate_ratio_csaps:
scaling_dict[i] = int(np.sum(N_tmp) / np.sum(F_tmp)) where N_tmp and F_tmp
are the spline evaluated rows at read length i. The division itself is
unguarded in the source; a zero denominator makes the int() conversion
raise, modelled as the error value. -/
def interpScalingStep (N_f2 F_f2 : ℤ → List ℚ) (i : ℤ) :
    Except InterpError ℤ :=
  let N_tmp := N_f2 i
  let F_tmp := F_f2 i
  if F_tmp.sum = 0 then .error .intConversion
  else .ok (truncQ (N_tmp.sum / F_tmp.sum))

/-- The scaling loop of interpolate_ratio_csaps over the dense read length
range np.arange(N_GC_min, N_GC_max + 1, 1), as an association list. -/
def interpScaling (N_f2 F_f2 : ℤ → List ℚ) (lo hi : ℤ) :
    Except InterpError (List (ℤ × ℤ)) :=
  (aRange lo (hi + 1) 1).mapM
    (fun i => (interpScalingStep N_f2 F_f2 i).map (fun s => (i, s)))

/-! Helper lemmas shared across the claims. -/

/-- The fractional part handed to the Bernoulli trial lies in the unit
half open interval for any argument value. -/
lemma frac_lt_one (v : ℚ) : v - (⌊v⌋ : ℚ) < 1 := by
  have := Int.lt_floor_add_one v
  push_cast at this ⊢
  linarith

/-- When the fractional part is nonzero the floor is strictly below. -/
lemma floor_lt_of_frac_ne (v : ℚ) (h : v - (⌊v⌋ : ℚ) ≠ 0) : (⌊v⌋ : ℚ) < v := by
  have hle := Int.floor_le v
  rcases lt_or_eq_of_le hle with h' | h'
  · exact h'
  · exact absurd (sub_eq_zero.mpr h'.symm) h

/-- C8: for every GC fraction g in the unit interval, roundGCLenghtBias
returns the integer part of round(g*100, 2) plus the Bernoulli draw, the
result is one of the two integers adjacent to round(g*100, 2), and the
expectation over a Bernoulli draw with success probability equal to the
fractional remainder is exactly round(g*100, 2): the rounding is unbiased. -/
theorem roundGCLenghtBias_unbiased (g : ℚ) (h0 : 0 ≤ g) (h1 : g ≤ 1) :
    (∀ bit, roundGCLenghtBias g bit =
        ⌊round2dec (g * 100)⌋ + binomial1 (round2dec (g * 100) - ⌊round2dec (g * 100)⌋) bit) ∧
    (∀ bit, roundGCLenghtBias g bit = ⌊round2dec (g * 100)⌋ ∨
        roundGCLenghtBias g bit = ⌈round2dec (g * 100)⌉) ∧
    (1 - (round2dec (g * 100) - ⌊round2dec (g * 100)⌋)) * (roundGCLenghtBias g false : ℚ) +
        (round2dec (g * 100) - ⌊round2dec (g * 100)⌋) * (roundGCLenghtBias g true : ℚ) =
      round2dec (g * 100) := by
  set v := round2dec (g * 100) with hv
  refine ⟨fun bit => rfl, fun bit => ?_, ?_⟩
  · by_cases hfrac : v - (⌊v⌋ : ℚ) = 0
    · left
      show (⌊v⌋ : ℤ) + binomial1 (v - (⌊v⌋ : ℚ)) bit = ⌊v⌋
      rw [binomial1, if_pos hfrac, add_zero]
    · cases bit with
      | false =>
          left
          show (⌊v⌋ : ℤ) + binomial1 (v - (⌊v⌋ : ℚ)) false = ⌊v⌋
          rw [binomial1, if_neg hfrac]
          simp
      | true =>
          right
          show (⌊v⌋ : ℤ) + binomial1 (v - (⌊v⌋ : ℚ)) true = ⌈v⌉
          rw [binomial1, if_neg hfrac]
          simp only [if_pos]
          rw [eq_comm, Int.ceil_eq_iff]
          constructor
          · push_cast
            have := floor_lt_of_frac_ne v hfrac
            linarith
          · push_cast
            have := frac_lt_one v
            linarith
  · by_cases hfrac : v - (⌊v⌋ : ℚ) = 0
    · have hfalse : roundGCLenghtBias g false = ⌊v⌋ := by
        show (⌊v⌋ : ℤ) + binomial1 (v - (⌊v⌋ : ℚ)) false = ⌊v⌋
        rw [binomial1, if_pos hfrac, add_zero]
      have htrue : roundGCLenghtBias g true = ⌊v⌋ := by
        show (⌊v⌋ : ℤ) + binomial1 (v - (⌊v⌋ : ℚ)) true = ⌊v⌋
        rw [binomial1, if_pos hfrac, add_zero]
      rw [hfalse, htrue]
      have hveq : (⌊v⌋ : ℚ) = v := by linarith [sub_eq_zero.mp hfrac]
      push_cast
      rw [hveq]
      ring
    · have hfalse : roundGCLenghtBias g false = ⌊v⌋ := by
        show (⌊v⌋ : ℤ) + binomial1 (v - (⌊v⌋ : ℚ)) false = ⌊v⌋
        rw [binomial1, if_neg hfrac]
        simp
      have htrue : roundGCLenghtBias g true = ⌊v⌋ + 1 := by
        show (⌊v⌋ : ℤ) + binomial1 (v - (⌊v⌋ : ℚ)) true = ⌊v⌋ + 1
        rw [binomial1, if_neg hfrac]
        simp
      rw [hfalse, htrue]
      push_cast
      ring

/-- Witness for C8 at the concrete GC fraction 1/3. -/
theorem roundGCLenghtBias_unbiased_witness :
    ((0 : ℚ) ≤ 1 / 3 ∧ (1 / 3 : ℚ) ≤ 1) ∧
    ((∀ bit, roundGCLenghtBias (1 / 3) bit =
        ⌊round2dec ((1 / 3 : ℚ) * 100)⌋ +
          binomial1 (round2dec ((1 / 3 : ℚ) * 100) - ⌊round2dec ((1 / 3 : ℚ) * 100)⌋) bit) ∧
      (∀ bit, roundGCLenghtBias (1 / 3) bit = ⌊round2dec ((1 / 3 : ℚ) * 100)⌋ ∨
          roundGCLenghtBias (1 / 3) bit = ⌈round2dec ((1 / 3 : ℚ) * 100)⌉) ∧
      (1 - (round2dec ((1 / 3 : ℚ) * 100) - ⌊round2dec ((1 / 3 : ℚ) * 100)⌋)) *
            (roundGCLenghtBias (1 / 3) false : ℚ) +
          (round2dec ((1 / 3 : ℚ) * 100) - ⌊round2dec ((1 / 3 : ℚ) * 100)⌋) *
            (roundGCLenghtBias (1 / 3) true : ℚ) =
        round2dec ((1 / 3 : ℚ) * 100)) :=
  ⟨⟨by decide, by decide⟩, roundGCLenghtBias_unbiased (1 / 3) (by decide) (by decide)⟩

/-- Folding the exclude interval filters over an empty position list
leaves it empty. -/
lemma foldl_filter_nil (out_match : List (ℤ × ℤ)) :
    out_match.foldl
      (fun ps intval =>
        ps.filter (fun p => decide (p < intval.1) || decide (intval.2 ≤ p)))
      ([] : List ℤ) = [] := by
  induction out_match with
  | nil => rfl
  | cons iv rest ih => simpa using ih

/-- An empty arange for a malformed range. -/
lemma aRange_eq_nil (start stop step : ℤ) (h : stop ≤ start) :
    aRange start stop step = [] := by
  unfold aRange arangeLen
  rw [if_neg (by omega)]
  rfl

/-- C3 counterexample: the position sampling function is total in the
source (it raises nothing; the KeyError of the interval trees is caught
locally), and at chrom c with start 10 greater than end 5 and stride 2 it
returns the empty list as an ordinary value instead of failing with an
InvalidRangeError. The start greater than end check lives in
tabulateGCcontent_worker instead. -/
theorem getPositionsToSample_returns_on_reversed_range :
    (10 : ℤ) > 5 ∧
    getPositionsToSample ⟨none, none⟩ "c" 10 5 2 = [] := by
  constructor
  · decide
  · rfl

/-- C3 amended: with no extra sampling regions configured, a reversed
range makes getPositionsToSample return the empty position list without
any failure, and it is the chunk worker that fails (the NameError raised
on start greater than end, the InvalidRangeError of the specification). -/
theorem reversed_range_worker_errors (env : WorkerEnv) (cfg : Config)
    (chromNameBam chrom : String) (start stop stepSize : ℤ)
    (fragmentLengths : List ℤ) (chrNameBamToBit : String → Option String)
    (hextra : cfg.extra_sampling_file = none) (h : start > stop) :
    getPositionsToSample cfg chrom start stop stepSize = [] ∧
    tabulateGCcontent_worker env cfg chromNameBam start stop stepSize
        fragmentLengths chrNameBamToBit = .error .invalidRange := by
  constructor
  · unfold getPositionsToSample
    rw [hextra]
    rw [aRange_eq_nil start stop stepSize (le_of_lt h)]
    cases hfo : cfg.filter_out with
    | none => rfl
    | some tree => exact foldl_filter_nil _
  · unfold tabulateGCcontent_worker
    rw [if_pos h]

/-- Witness for the C3 amended theorem at a concrete reversed range. -/
theorem reversed_range_worker_errors_witness :
    ((⟨none, none⟩ : Config).extra_sampling_file = none ∧ (10 : ℤ) > 5) ∧
    (getPositionsToSample ⟨none, none⟩ "chr2L" 10 5 2 = [] ∧
      tabulateGCcontent_worker
          ⟨fun _ => 1000, fun _ _ _ => some 0, fun _ _ _ => [], fun _ _ => false, fun _ => 5⟩
          ⟨none, none⟩ "2L" 10 5 2 [3] (fun _ => some "chr2L") = .error .invalidRange) :=
  ⟨⟨rfl, by decide⟩,
    reversed_range_worker_errors
      ⟨fun _ => 1000, fun _ _ _ => some 0, fun _ _ _ => [], fun _ _ => false, fun _ => 5⟩
      ⟨none, none⟩ "2L" "chr2L" 10 5 2 [3] (fun _ => some "chr2L") rfl (by decide)⟩

/-- Membership after folding the per interval filters: a position survives
exactly when it was present before and lies outside every interval. -/
lemma mem_foldl_filter (out_match : List (ℤ × ℤ)) (ps : List ℤ) (p : ℤ) :
    p ∈ out_match.foldl
        (fun ps intval =>
          ps.filter (fun q => decide (q < intval.1) || decide (intval.2 ≤ q)))
        ps ↔
      p ∈ ps ∧ ∀ intval ∈ out_match, p < intval.1 ∨ intval.2 ≤ p := by
  induction out_match generalizing ps with
  | nil => simp
  | cons iv rest ih =>
      rw [List.foldl_cons, ih]
      simp only [List.mem_filter, List.mem_cons]
      constructor
      · rintro ⟨⟨hps, hcond⟩, hrest⟩
        refine ⟨hps, fun intval hintval => ?_⟩
        rcases hintval with h | h
        · subst h
          rcases Bool.or_eq_true_iff.mp hcond with h' | h' <;>
            [left; right] <;> exact of_decide_eq_true h'
        · exact hrest intval h
      · rintro ⟨hps, hall⟩
        refine ⟨⟨hps, ?_⟩, fun intval hintval => hall intval (Or.inr hintval)⟩
        rcases hall iv (Or.inl rfl) with h | h
        · exact Bool.or_eq_true_iff.mpr (Or.inl (decide_eq_true h))
        · exact Bool.or_eq_true_iff.mpr (Or.inr (decide_eq_true h))

/-- C4: when the exclude tree returns the interval list out_match for the
queried range, the positions returned by getPositionsToSample are exactly
the positions the same call would return with no exclude tree configured,
minus those inside some interval of out_match: a position survives iff it
lies strictly left of the interval start or at or beyond the interval end
for every returned interval, and no other position is removed. -/
theorem getPositionsToSample_excludes_exactly (cfg : Config)
    (tree : IntervalTree) (out_match : List (ℤ × ℤ)) (chrom : String)
    (start stop stepSize p : ℤ)
    (hfo : cfg.filter_out = some tree)
    (hm : tree chrom start stop = some out_match) :
    p ∈ getPositionsToSample cfg chrom start stop stepSize ↔
      p ∈ getPositionsToSample { cfg with filter_out := none } chrom start stop stepSize ∧
        ∀ intval ∈ out_match, p < intval.1 ∨ intval.2 ≤ p := by
  unfold getPositionsToSample
  rw [hfo]
  simp only [hm, Option.getD_some]
  exact mem_foldl_filter out_match _ p

/-- Witness for C4 at a concrete exclude interval. -/
theorem getPositionsToSample_excludes_exactly_witness :
    ((⟨some (fun _ _ _ => some [((4 : ℤ), (8 : ℤ))]), none⟩ : Config).filter_out =
        some (fun _ _ _ => some [((4 : ℤ), (8 : ℤ))]) ∧
      (fun (_ : String) (_ : ℤ) (_ : ℤ) => some [((4 : ℤ), (8 : ℤ))]) "chr2L" 0 20 =
        some [((4 : ℤ), (8 : ℤ))]) ∧
    ((2 : ℤ) ∈ getPositionsToSample
        ⟨some (fun _ _ _ => some [((4 : ℤ), (8 : ℤ))]), none⟩ "chr2L" 0 20 2 ↔
      (2 : ℤ) ∈ getPositionsToSample
          ⟨none, none⟩ "chr2L" 0 20 2 ∧
        ∀ intval ∈ [((4 : ℤ), (8 : ℤ))], (2 : ℤ) < intval.1 ∨ intval.2 ≤ 2) :=
  ⟨⟨rfl, rfl⟩,
    getPositionsToSample_excludes_exactly
      ⟨some (fun _ _ _ => some [((4 : ℤ), (8 : ℤ))]), none⟩
      (fun _ _ _ => some [((4 : ℤ), (8 : ℤ))]) [((4 : ℤ), (8 : ℤ))]
      "chr2L" 0 20 2 2 rfl rfl⟩

/-- Elementwise histogram addition is commutative. -/
lemma addHist_comm (a b : List ℕ) : addHist a b = addHist b a :=
  List.zipWith_comm_of_comm _ Nat.add_comm a b

/-- Elementwise histogram addition is associative. -/
lemma addHist_assoc (a b c : List ℕ) :
    addHist (addHist a b) c = addHist a (addHist b c) := by
  induction a generalizing b c with
  | nil => rfl
  | cons x xs ih =>
      cases b with
      | nil => rfl
      | cons y ys =>
          cases c with
          | nil => rfl
          | cons z zs =>
              show (x + y + z) :: addHist (addHist xs ys) zs =
                (x + (y + z)) :: addHist xs (addHist ys zs)
              rw [Nat.add_assoc, ih ys zs]

/-- The dict merge comprehension is commutative. -/
lemma mergeDicts_comm (d1 d2 : String → Option (List ℕ)) :
    mergeDicts d1 d2 = mergeDicts d2 d1 := by
  funext k
  unfold mergeDicts
  cases d1 k <;> cases d2 k <;> simp [addHist_comm]

/-- The dict merge comprehension is associative. -/
lemma mergeDicts_assoc (d1 d2 d3 : String → Option (List ℕ)) :
    mergeDicts (mergeDicts d1 d2) d3 = mergeDicts d1 (mergeDicts d2 d3) := by
  funext k
  unfold mergeDicts
  cases d1 k <;> cases d2 k <;> cases d3 k <;> simp [addHist_assoc]

/-- Count stored in a merged table for a key and a GC bin, with a missing
key read as the zero histogram (the 0 default of dict.get absorbed by
numpy array addition). -/
def histBin (d : String → Option (List ℕ)) (k : String) (g : ℕ) : ℕ :=
  ((d k).getD (List.replicate 101 0)).getD g 0

/-- getD of an elementwise sum within both lengths is the sum of the getD
values. -/
lemma addHist_getD (a b : List ℕ) (g : ℕ) (hga : g < a.length)
    (hgb : g < b.length) :
    (addHist a b).getD g 0 = a.getD g 0 + b.getD g 0 := by
  induction a generalizing b g with
  | nil => simp at hga
  | cons x xs ih =>
      cases b with
      | nil => simp at hgb
      | cons y ys =>
          cases g with
          | zero => simp [addHist, List.zipWith]
          | succ g =>
              simp only [addHist, List.zipWith, List.getD_cons_succ]
              exact ih ys g (by simpa using hga) (by simpa using hgb)

/-- Well formed merged table: every stored histogram has the 101 GC bins. -/
def WfDict (d : String → Option (List ℕ)) : Prop :=
  ∀ k a, d k = some a → a.length = 101

/-- Any lookup into an association list whose entries all have 101 bins is
101 bins long. -/
lemma alGet_wf (entries : List (String × List ℕ))
    (h : ∀ p ∈ entries, p.2.length = 101) : WfDict (alGet entries) := by
  intro k a ha
  unfold alGet at ha
  cases hf : entries.find? (fun p => p.1 == k) with
  | none => rw [hf] at ha; exact Option.noConfusion ha
  | some p =>
      rw [hf] at ha
      have ha2 : p.2 = a := Option.some.inj ha
      exact ha2 ▸ h p (List.mem_of_find?_eq_some hf)

/-- C2: the reduce step of tabulateGCcontent is elementwise addition of
counts keyed by fragment length string and GC bin (with missing keys read
as zero), it is commutative and associative, and folding any permutation
of a collection of partial tables from any initial accumulator gives the
same merged table. -/
theorem mergeDicts_elementwise_comm_assoc_perm
    (d1 d2 d3 init : String → Option (List ℕ))
    (rs rs' : List (String → Option (List ℕ)))
    (hperm : rs.Perm rs') (h1 : WfDict d1) (h2 : WfDict d2) :
    (∀ k g, g < 101 →
      histBin (mergeDicts d1 d2) k g = histBin d1 k g + histBin d2 k g) ∧
    mergeDicts d1 d2 = mergeDicts d2 d1 ∧
    mergeDicts (mergeDicts d1 d2) d3 = mergeDicts d1 (mergeDicts d2 d3) ∧
    rs.foldl mergeDicts init = rs'.foldl mergeDicts init := by
  refine ⟨?_, mergeDicts_comm d1 d2, mergeDicts_assoc d1 d2 d3, ?_⟩
  · intro k g hg
    have hrep : (List.replicate 101 (0 : ℕ)).getD g 0 = 0 := by
      rw [List.getD_eq_getElem?_getD, List.getElem?_replicate, if_pos hg]
      rfl
    unfold histBin mergeDicts
    cases hd1 : d1 k with
    | none =>
        cases hd2 : d2 k with
        | none =>
            show (List.replicate 101 0).getD g 0 =
              (List.replicate 101 0).getD g 0 + (List.replicate 101 0).getD g 0
            rw [hrep]
        | some b =>
            show b.getD g 0 = (List.replicate 101 0).getD g 0 + b.getD g 0
            rw [hrep, Nat.zero_add]
    | some a =>
        cases hd2 : d2 k with
        | none =>
            show a.getD g 0 = a.getD g 0 + (List.replicate 101 0).getD g 0
            rw [hrep, Nat.add_zero]
        | some b =>
            show (addHist a b).getD g 0 = a.getD g 0 + b.getD g 0
            exact addHist_getD a b g (by rw [h1 k a hd1]; exact hg)
              (by rw [h2 k b hd2]; exact hg)
  · haveI : Std.Commutative mergeDicts := ⟨mergeDicts_comm⟩
    haveI : Std.Associative mergeDicts := ⟨mergeDicts_assoc⟩
    exact hperm.foldl_eq init

/-- Witness for C2 on two concrete one key tables merged in both orders. -/
theorem mergeDicts_elementwise_comm_assoc_perm_witness :
    ([alGet [("30", List.replicate 101 1)],
        alGet [("35", List.replicate 101 2)]].Perm
      [alGet [("35", List.replicate 101 2)],
        alGet [("30", List.replicate 101 1)]] ∧
      WfDict (alGet [("30", List.replicate 101 1)]) ∧
      WfDict (alGet [("35", List.replicate 101 2)])) ∧
    ((∀ k g, g < 101 →
        histBin (mergeDicts (alGet [("30", List.replicate 101 1)])
            (alGet [("35", List.replicate 101 2)])) k g =
          histBin (alGet [("30", List.replicate 101 1)]) k g +
            histBin (alGet [("35", List.replicate 101 2)]) k g) ∧
      mergeDicts (alGet [("30", List.replicate 101 1)])
          (alGet [("35", List.replicate 101 2)]) =
        mergeDicts (alGet [("35", List.replicate 101 2)])
          (alGet [("30", List.replicate 101 1)]) ∧
      mergeDicts
          (mergeDicts (alGet [("30", List.replicate 101 1)])
            (alGet [("35", List.replicate 101 2)]))
          (alGet [("30", List.replicate 101 1)]) =
        mergeDicts (alGet [("30", List.replicate 101 1)])
          (mergeDicts (alGet [("35", List.replicate 101 2)])
            (alGet [("30", List.replicate 101 1)])) ∧
      [alGet [("30", List.replicate 101 1)],
          alGet [("35", List.replicate 101 2)]].foldl mergeDicts (fun _ => none) =
        [alGet [("35", List.replicate 101 2)],
            alGet [("30", List.replicate 101 1)]].foldl mergeDicts (fun _ => none)) :=
  ⟨⟨List.Perm.swap _ _ _,
      alGet_wf _ (by decide), alGet_wf _ (by decide)⟩,
    mergeDicts_elementwise_comm_assoc_perm
      (alGet [("30", List.replicate 101 1)])
      (alGet [("35", List.replicate 101 2)])
      (alGet [("30", List.replicate 101 1)]) (fun _ => none) _ _
      (List.Perm.swap _ _ _)
      (alGet_wf _ (by decide)) (alGet_wf _ (by decide))⟩

/-- mapM in the Except monad over a list of calls that all succeed. -/
lemma mapM_ok {ε α β : Type} (f : α → Except ε β) (g : α → β) :
    ∀ l : List α, (∀ a ∈ l, f a = .ok (g a)) → l.mapM f = .ok (l.map g) := by
  intro l h
  induction l with
  | nil => rfl
  | cons a l ih =>
      rw [List.mapM_cons, h a (List.mem_cons_self a l),
        ih (fun b hb => h b (List.mem_cons_of_mem a hb))]
      rfl

/-- The value delivered by a successful worker call, as a function of the
chunk alone (the arbitrary pair for an unmapped chromosome is never
reached when the lookup succeeds). -/
def workerResult (env : WorkerEnv) (cfg : Config) (stepSize : ℤ)
    (fragmentLengths : List ℤ) (chrNameBamToBit : String → Option String)
    (c : Chunk) : List (String × List ℕ) × List (String × List ℕ) :=
  match chrNameBamToBit c.chrom with
  | none => ([], [])
  | some chromNameBit =>
      let res := tabulateGCcontent_worker_core env cfg c.chrom chromNameBit
        c.start c.stop stepSize fragmentLengths
      (res.1, res.2.1)

/-- A worker call on a well formed chunk with a mapped chromosome returns
normally with the workerResult value. -/
lemma worker_ok (env : WorkerEnv) (cfg : Config) (stepSize : ℤ)
    (fragmentLengths : List ℤ) (chrNameBamToBit : String → Option String)
    (c : Chunk) (hvalid : c.start ≤ c.stop)
    (hmap : (chrNameBamToBit c.chrom).isSome) :
    tabulateGCcontent_worker env cfg c.chrom c.start c.stop stepSize
        fragmentLengths chrNameBamToBit =
      .ok (workerResult env cfg stepSize fragmentLengths chrNameBamToBit c) := by
  unfold tabulateGCcontent_worker workerResult
  rw [if_neg (not_lt.mpr hvalid)]
  rcases Option.isSome_iff_exists.mp hmap with ⟨chromNameBit, hbit⟩
  rw [hbit]

/-- The reduce step over the pair of dicts. -/
def pairMergeStep
    (acc : (String → Option (List ℕ)) × (String → Option (List ℕ)))
    (r : List (String × List ℕ) × List (String × List ℕ)) :
    (String → Option (List ℕ)) × (String → Option (List ℕ)) :=
  (mergeDicts acc.1 (alGet r.1), mergeDicts acc.2 (alGet r.2))

/-- The reduce step commutes on the right. -/
lemma pairMergeStep_right_comm (acc : _) (r1 r2 : _) :
    pairMergeStep (pairMergeStep acc r1) r2 =
      pairMergeStep (pairMergeStep acc r2) r1 := by
  unfold pairMergeStep
  refine Prod.ext ?_ ?_
  · simp only [mergeDicts_assoc]
    rw [mergeDicts_comm (alGet r1.1) (alGet r2.1)]
  · simp only [mergeDicts_assoc]
    rw [mergeDicts_comm (alGet r1.2) (alGet r2.2)]

/-- A run over well formed mapped chunks reduces to a pure fold of the
per chunk results. -/
lemma tabulate_ok (env : WorkerEnv) (cfg : Config) (stepSize : ℤ)
    (fragmentLengths : List ℤ) (chrNameBamToBit : String → Option String)
    (chunks : List Chunk)
    (hvalid : ∀ c ∈ chunks, c.start ≤ c.stop)
    (hmap : ∀ c ∈ chunks, (chrNameBamToBit c.chrom).isSome) :
    tabulateGCcontent env cfg stepSize fragmentLengths chrNameBamToBit chunks =
      .ok ((chunks.map (workerResult env cfg stepSize fragmentLengths chrNameBamToBit)).foldl
        pairMergeStep ((fun _ => none), (fun _ => none))) := by
  unfold tabulateGCcontent
  rw [mapM_ok _ (workerResult env cfg stepSize fragmentLengths chrNameBamToBit) chunks
    (fun c hc => worker_ok env cfg stepSize fragmentLengths chrNameBamToBit c
      (hvalid c hc) (hmap c hc))]
  rfl

/-- C1 counterexample: the same region of the same genome, tabulated with
the same oracles and the same fragment length list, once as a single chunk
over positions 0 to 20 and once split at position 10, yields different
merged Expected tables (9 sampled positions against 8: each chunk reserves
the fragment length at its own end and restarts the stride at its own
start). The merged output is therefore not invariant under the chunk
partitioning, refuting byte identical artifacts across chunk sizes. -/
theorem tabulateGCcontent_chunking_dependent :
    tabulateGCcontent
        ⟨fun _ => 1000, fun _ _ _ => some 0, fun _ _ _ => [], fun _ _ => false, fun _ => 5⟩
        ⟨none, none⟩ 2 [3] (fun _ => some "chr2L")
        [⟨"2L", 0, 20⟩] ≠
      tabulateGCcontent
        ⟨fun _ => 1000, fun _ _ _ => some 0, fun _ _ _ => [], fun _ _ => false, fun _ => 5⟩
        ⟨none, none⟩ 2 [3] (fun _ => some "chr2L")
        [⟨"2L", 0, 10⟩, ⟨"2L", 10, 20⟩] := by
  intro h
  have h2 := congrArg
    (fun r => match r with
      | Except.ok p => p.1 "3"
      | Except.error _ => none) h
  exact absurd h2 (by decide)

/-- C1 amended: for a fixed chunk partitioning and fixed oracles (in
particular a fixed random bit source for the stochastic rounding), the
merged tables are identical for every processing order of the chunks, so
the reduce outcome does not depend on worker count or completion order. -/
theorem tabulateGCcontent_chunk_order_invariant (env : WorkerEnv)
    (cfg : Config) (stepSize : ℤ) (fragmentLengths : List ℤ)
    (chrNameBamToBit : String → Option String) (chunks chunks' : List Chunk)
    (hperm : chunks.Perm chunks')
    (hvalid : ∀ c ∈ chunks, c.start ≤ c.stop)
    (hmap : ∀ c ∈ chunks, (chrNameBamToBit c.chrom).isSome) :
    tabulateGCcontent env cfg stepSize fragmentLengths chrNameBamToBit chunks =
      tabulateGCcontent env cfg stepSize fragmentLengths chrNameBamToBit chunks' := by
  rw [tabulate_ok env cfg stepSize fragmentLengths chrNameBamToBit chunks hvalid hmap,
    tabulate_ok env cfg stepSize fragmentLengths chrNameBamToBit chunks'
      (fun c hc => hvalid c (hperm.mem_iff.mpr hc))
      (fun c hc => hmap c (hperm.mem_iff.mpr hc))]
  haveI : RightCommutative pairMergeStep := ⟨pairMergeStep_right_comm⟩
  exact congrArg Except.ok
    ((hperm.map (workerResult env cfg stepSize fragmentLengths chrNameBamToBit)).foldl_eq _)

/-- Witness for the C1 amended theorem: two chunks processed in both
orders. -/
theorem tabulateGCcontent_chunk_order_invariant_witness :
    ([(⟨"2L", 0, 10⟩ : Chunk), ⟨"2L", 10, 20⟩].Perm
        [(⟨"2L", 10, 20⟩ : Chunk), ⟨"2L", 0, 10⟩] ∧
      (∀ c ∈ [(⟨"2L", 0, 10⟩ : Chunk), ⟨"2L", 10, 20⟩], c.start ≤ c.stop) ∧
      (∀ c ∈ [(⟨"2L", 0, 10⟩ : Chunk), ⟨"2L", 10, 20⟩],
        ((fun (_ : String) => some "chr2L") c.chrom).isSome)) ∧
    tabulateGCcontent
        ⟨fun _ => 1000, fun _ _ _ => some 0, fun _ _ _ => [], fun _ _ => false, fun _ => 5⟩
        ⟨none, none⟩ 2 [3] (fun _ => some "chr2L")
        [⟨"2L", 0, 10⟩, ⟨"2L", 10, 20⟩] =
      tabulateGCcontent
        ⟨fun _ => 1000, fun _ _ _ => some 0, fun _ _ _ => [], fun _ _ => false, fun _ => 5⟩
        ⟨none, none⟩ 2 [3] (fun _ => some "chr2L")
        [⟨"2L", 10, 20⟩, ⟨"2L", 0, 10⟩] :=
  ⟨⟨List.Perm.swap _ _ _, by decide, by decide⟩,
    tabulateGCcontent_chunk_order_invariant
      ⟨fun _ => 1000, fun _ _ _ => some 0, fun _ _ _ => [], fun _ _ => false, fun _ => 5⟩
      ⟨none, none⟩ 2 [3] (fun _ => some "chr2L")
      [⟨"2L", 0, 10⟩, ⟨"2L", 10, 20⟩] [⟨"2L", 10, 20⟩, ⟨"2L", 0, 10⟩]
      (List.Perm.swap _ _ _) (by decide) (by decide)⟩

/-- For a GC fraction in the unit interval the stochastically rounded bin
lies between 0 and 100. -/
lemma roundGCLenghtBias_bounds (g : ℚ) (bit : Bool) (h0 : 0 ≤ g) (h1 : g ≤ 1) :
    0 ≤ roundGCLenghtBias g bit ∧ roundGCLenghtBias g bit ≤ 100 := by
  have hr0 : (0 : ℤ) ≤ round (g * 100 * 100) := by
    rw [round_eq]
    have h2 : (0 : ℤ) = ⌊(1 : ℚ) / 2⌋ := by decide
    rw [h2]
    exact Int.floor_le_floor (by nlinarith)
  have hr1 : round (g * 100 * 100) ≤ 10000 := by
    rw [round_eq]
    have h2 : (10000 : ℤ) = ⌊(10000 : ℚ) + 1 / 2⌋ := by decide
    rw [h2]
    exact Int.floor_le_floor (by nlinarith)
  have hv0 : (0 : ℚ) ≤ round2dec (g * 100) := by
    unfold round2dec
    apply div_nonneg _ (by norm_num)
    exact_mod_cast hr0
  have hv1 : round2dec (g * 100) ≤ 100 := by
    unfold round2dec
    rw [div_le_iff (by norm_num : (0 : ℚ) < 100)]
    calc ((round (g * 100 * 100) : ℤ) : ℚ) ≤ ((10000 : ℤ) : ℚ) := by exact_mod_cast hr1
      _ = 100 * 100 := by norm_num
  set v := round2dec (g * 100) with hvdef
  have hf0 : (0 : ℤ) ≤ ⌊v⌋ := Int.floor_nonneg.mpr hv0
  have hf1 : ⌊v⌋ ≤ 100 := by
    have h100 : ⌊(100 : ℚ)⌋ = (100 : ℤ) := by decide
    have := Int.floor_le_floor hv1
    rw [h100] at this
    exact this
  have hb : binomial1 (v - (⌊v⌋ : ℚ)) bit = 0 ∨ binomial1 (v - (⌊v⌋ : ℚ)) bit = 1 := by
    unfold binomial1
    by_cases hz : v - (⌊v⌋ : ℚ) = 0
    · left; rw [if_pos hz]
    · rw [if_neg hz]
      cases bit
      · left; rfl
      · right; rfl
  have hshow : roundGCLenghtBias g bit = ⌊v⌋ + binomial1 (v - (⌊v⌋ : ℚ)) bit := rfl
  rw [hshow]
  constructor
  · rcases hb with h | h <;> rw [h] <;> omega
  · by_cases hfrac : v - (⌊v⌋ : ℚ) = 0
    · have : binomial1 (v - (⌊v⌋ : ℚ)) bit = 0 := by unfold binomial1; rw [if_pos hfrac]
      rw [this]
      omega
    · have hlt : (⌊v⌋ : ℚ) < v := floor_lt_of_frac_ne v hfrac
      have hlt100 : ⌊v⌋ < 100 := by
        have : (⌊v⌋ : ℚ) < 100 := lt_of_lt_of_le hlt hv1
        exact_mod_cast this
      rcases hb with h | h <;> rw [h] <;> omega

/-- C5: at a sampled position whose GC lookup succeeds with a unit
interval fraction, if the read count reaches the per length cap the
position only bumps the peak counter and leaves both histograms untouched;
otherwise it leaves the peak counter alone and adds exactly 1 to the
Expected histogram and exactly the read count to the Observed histogram,
in the stochastically rounded bin and nowhere else. -/
theorem processPosition_cap_and_contribution (env : WorkerEnv)
    (chromNameBam chromNameBit : String) (fragmentLength i : ℤ)
    (st : LoopState) (gcFrac : ℚ)
    (hgc : env.getGC_content chromNameBit i (i + fragmentLength) = some gcFrac)
    (h0 : 0 ≤ gcFrac) (h1 : gcFrac ≤ 1)
    (hn : st.sub_n_gc.length = 101) (hf : st.subF_gc.length = 101) :
    (env.max_reads fragmentLength ≤ (countReadsAt env chromNameBam i fragmentLength : ℚ) →
      processPosition env chromNameBam chromNameBit fragmentLength st i =
        { st with peak := st.peak + 1 }) ∧
    ((countReadsAt env chromNameBam i fragmentLength : ℚ) < env.max_reads fragmentLength →
      (processPosition env chromNameBam chromNameBit fragmentLength st i).peak = st.peak ∧
      (∀ b, b < 101 →
        (processPosition env chromNameBam chromNameBit fragmentLength st i).sub_n_gc.getD b 0 =
          st.sub_n_gc.getD b 0 +
            (if b = (roundGCLenghtBias gcFrac (env.randBit fragmentLength i)).toNat
             then 1 else 0)) ∧
      (∀ b, b < 101 →
        (processPosition env chromNameBam chromNameBit fragmentLength st i).subF_gc.getD b 0 =
          st.subF_gc.getD b 0 +
            (if b = (roundGCLenghtBias gcFrac (env.randBit fragmentLength i)).toNat
             then countReadsAt env chromNameBam i fragmentLength else 0))) := by
  have hpp : processPosition env chromNameBam chromNameBit fragmentLength st i =
      (if env.max_reads fragmentLength ≤
          (countReadsAt env chromNameBam i fragmentLength : ℚ) then
        { st with peak := st.peak + 1 }
      else
        { st with
          sub_n_gc := st.sub_n_gc.set
            (roundGCLenghtBias gcFrac (env.randBit fragmentLength i)).toNat
            (st.sub_n_gc.getD
              (roundGCLenghtBias gcFrac (env.randBit fragmentLength i)).toNat 0 + 1),
          subF_gc := st.subF_gc.set
            (roundGCLenghtBias gcFrac (env.randBit fragmentLength i)).toNat
            (st.subF_gc.getD
              (roundGCLenghtBias gcFrac (env.randBit fragmentLength i)).toNat 0 +
              countReadsAt env chromNameBam i fragmentLength) }) := by
    unfold processPosition
    rw [hgc]
  have hbounds :=
    roundGCLenghtBias_bounds gcFrac (env.randBit fragmentLength i) h0 h1
  have hgclt : (roundGCLenghtBias gcFrac (env.randBit fragmentLength i)).toNat < 101 := by
    omega
  constructor
  · intro hcap
    rw [hpp, if_pos hcap]
  · intro hcap
    rw [hpp, if_neg (not_le.mpr hcap)]
    refine ⟨rfl, ?_, ?_⟩
    · intro b hb
      by_cases hbgc :
          b = (roundGCLenghtBias gcFrac (env.randBit fragmentLength i)).toNat
      · subst hbgc
        rw [if_pos rfl]
        rw [List.getD_eq_getElem?_getD,
          List.getElem?_set_self (by rw [hn]; exact hb), Option.getD_some]
      · rw [if_neg hbgc]
        show (st.sub_n_gc.set _ _).getD b 0 = st.sub_n_gc.getD b 0 + 0
        rw [List.getD_eq_getElem?_getD, List.getElem?_set_ne (Ne.symm hbgc),
          ← List.getD_eq_getElem?_getD, Nat.add_zero]
    · intro b hb
      by_cases hbgc :
          b = (roundGCLenghtBias gcFrac (env.randBit fragmentLength i)).toNat
      · subst hbgc
        rw [if_pos rfl]
        rw [List.getD_eq_getElem?_getD,
          List.getElem?_set_self (by rw [hf]; exact hb), Option.getD_some]
      · rw [if_neg hbgc]
        show (st.subF_gc.set _ _).getD b 0 = st.subF_gc.getD b 0 + 0
        rw [List.getD_eq_getElem?_getD, List.getElem?_set_ne (Ne.symm hbgc),
          ← List.getD_eq_getElem?_getD, Nat.add_zero]

/-- Concrete worker environment for the C5 witness: one properly paired
read of template span 30 starting at position 7, GC fraction one half
everywhere, cap of 5 reads. -/
def demoEnvC5 : WorkerEnv :=
  ⟨fun _ => 1000, fun _ _ _ => some (1 / 2),
    fun _ _ _ => [⟨7, true, true, 9, 30, 0⟩], fun _ _ => true, fun _ => 5⟩

/-- Fresh loop state for the C5 witness. -/
def demoStC5 : LoopState := ⟨List.replicate 101 0, List.replicate 101 0, 0⟩

/-- Witness for C5 at position 7 and fragment length 30. -/
theorem processPosition_cap_and_contribution_witness :
    (demoEnvC5.getGC_content "chr2L" 7 (7 + 30) = some (1 / 2) ∧
      (0 : ℚ) ≤ 1 / 2 ∧ (1 / 2 : ℚ) ≤ 1 ∧
      demoStC5.sub_n_gc.length = 101 ∧ demoStC5.subF_gc.length = 101) ∧
    ((demoEnvC5.max_reads 30 ≤ (countReadsAt demoEnvC5 "2L" 7 30 : ℚ) →
      processPosition demoEnvC5 "2L" "chr2L" 30 demoStC5 7 =
        { demoStC5 with peak := demoStC5.peak + 1 }) ∧
    ((countReadsAt demoEnvC5 "2L" 7 30 : ℚ) < demoEnvC5.max_reads 30 →
      (processPosition demoEnvC5 "2L" "chr2L" 30 demoStC5 7).peak = demoStC5.peak ∧
      (∀ b, b < 101 →
        (processPosition demoEnvC5 "2L" "chr2L" 30 demoStC5 7).sub_n_gc.getD b 0 =
          demoStC5.sub_n_gc.getD b 0 +
            (if b = (roundGCLenghtBias (1 / 2) (demoEnvC5.randBit 30 7)).toNat
             then 1 else 0)) ∧
      (∀ b, b < 101 →
        (processPosition demoEnvC5 "2L" "chr2L" 30 demoStC5 7).subF_gc.getD b 0 =
          demoStC5.subF_gc.getD b 0 +
            (if b = (roundGCLenghtBias (1 / 2) (demoEnvC5.randBit 30 7)).toNat
             then countReadsAt demoEnvC5 "2L" 7 30 else 0)))) :=
  ⟨⟨rfl, by decide, by decide, rfl, rfl⟩,
    processPosition_cap_and_contribution demoEnvC5 "2L" "chr2L" 30 7 demoStC5
      (1 / 2) rfl (by decide) (by decide) rfl rfl⟩

/-- Predicate written from the specification words, for comparison with
the counting code: a fragment starting at i counts for length L when it is
a paired fragment that is properly paired with its mate downstream of i
and its absolute template span equals L, or an unpaired read whose own
read length equals L. -/
def specCountedFragment (i L : ℤ) (read : BamRead) : Bool :=
  decide (read.pos = i) &&
    ((read.is_paired && read.is_proper_pair &&
        decide (i < read.next_reference_start) &&
        decide (|read.template_length| = L)) ||
      (!read.is_paired && decide ((read.query_length : ℤ) = L)))

/-- C6: for a positive fragment length and a fetch result with consistent
pairing flags (a properly paired read is paired), num_reads counts exactly
the fragments described by the specification: paired fragments only when
properly paired with the mate downstream of i and absolute template span
equal to L, unpaired fragments by their own read length, and nothing else. -/
theorem countReadsAt_matches_spec (env : WorkerEnv) (chromNameBam : String)
    (i L : ℤ) (hL : 0 < L)
    (hflags : ∀ read ∈ env.fetch chromNameBam i (i + 1),
      read.is_proper_pair = true → read.is_paired = true) :
    countReadsAt env chromNameBam i L =
      ((env.fetch chromNameBam i (i + 1)).filter (specCountedFragment i L)).length := by
  unfold countReadsAt
  congr 1
  apply List.filter_congr
  intro read hread
  have hcons := hflags read hread
  by_cases hpos : read.pos = i
  · cases hpp : read.is_proper_pair with
    | true =>
        have hp : read.is_paired = true := hcons hpp
        by_cases hnrs : read.pos < read.next_reference_start
        · have hnrs' : i < read.next_reference_start := hpos ▸ hnrs
          simp [r_len, specCountedFragment, hpos, hpp, hp, hnrs, hnrs']
        · have hnrs' : ¬ i < read.next_reference_start := hpos ▸ hnrs
          simp [r_len, specCountedFragment, hpos, hpp, hp, hnrs, hnrs']
          omega
    | false =>
        cases hp : read.is_paired with
        | true =>
            simp [r_len, specCountedFragment, hpos, hpp, hp]
            omega
        | false =>
            simp [r_len, specCountedFragment, hpos, hpp, hp]
  · simp [specCountedFragment, hpos]

/-- Fetch oracle for the C6 witness: at position 7 one properly paired
read with downstream mate and template span 30, one paired but not
properly paired read, and one unpaired read of length 30. -/
def demoEnvC6 : WorkerEnv :=
  ⟨fun _ => 1000, fun _ _ _ => some 0,
    fun _ _ _ =>
      [⟨7, true, true, 9, 30, 0⟩, ⟨7, false, true, 9, 30, 30⟩,
        ⟨7, false, false, 0, 0, 30⟩],
    fun _ _ => false, fun _ => 5⟩

/-- Witness for C6 at position 7 and fragment length 30. -/
theorem countReadsAt_matches_spec_witness :
    ((0 : ℤ) < 30 ∧
      (∀ read ∈ demoEnvC6.fetch "2L" 7 (7 + 1),
        read.is_proper_pair = true → read.is_paired = true)) ∧
    countReadsAt demoEnvC6 "2L" 7 30 =
      ((demoEnvC6.fetch "2L" 7 (7 + 1)).filter (specCountedFragment 7 30)).length :=
  ⟨⟨by decide, by decide⟩,
    countReadsAt_matches_spec demoEnvC6 "2L" 7 30 (by decide) (by decide)⟩

/-- Looking up a key in the association list built by pairing each list
element with a function of itself finds that function value. -/
lemma lookup_map_pair (q : ℤ → ℚ) :
    ∀ (l : List ℤ) (i : ℤ), i ∈ l →
      (l.map (fun j => (j, q j))).lookup i = some (q i) := by
  intro l
  induction l with
  | nil => intro i hi; exact absurd hi (List.not_mem_nil i)
  | cons j rest ih =>
      intro i hi
      rw [List.map_cons, List.lookup_cons]
      by_cases hij : i = j
      · subst hij
        rw [beq_self_eq_true]
      · rw [beq_eq_false_iff_ne.mpr hij]
        exact ih i ((List.mem_cons.mp hi).resolve_left hij)

/-- C7: in direct mode, when every Observed row of the table has a nonzero
sum (otherwise the scaling loop raises ZeroDivisionError and get_ratio
returns nothing), get_ratio returns one ratio row per fragment length
present, the scaling factor of a row is sum(Expected) over sum(Observed),
and each GC bin of the row equals Observed over Expected times the scaling
factor when both counts are positive, and exactly 1 otherwise. -/
theorem get_ratio_direct_mode (lengths : List ℤ) (N_GC F_GC : ℤ → List ℕ)
    (i : ℤ) (hi : i ∈ lengths) (g : ℕ) (hg : g < 101)
    (hlenN : (N_GC i).length = 101) (hlenF : (F_GC i).length = 101)
    (hnz : ∀ j ∈ lengths, ((F_GC j).sum : ℚ) ≠ 0) :
    get_ratio lengths N_GC F_GC =
      .ok (lengths.map (fun j =>
        (j, ratio_row (N_GC j) (F_GC j)
          (((N_GC j).sum : ℚ) / ((F_GC j).sum : ℚ))))) ∧
    scaling_of (N_GC i) (F_GC i) =
      .ok (((N_GC i).sum : ℚ) / ((F_GC i).sum : ℚ)) ∧
    (ratio_row (N_GC i) (F_GC i)
        (((N_GC i).sum : ℚ) / ((F_GC i).sum : ℚ))).getD g 1 =
      (if 0 < (N_GC i).getD g 0 ∧ 0 < (F_GC i).getD g 0 then
        ((F_GC i).getD g 0 : ℚ) / ((N_GC i).getD g 0 : ℚ) *
          (((N_GC i).sum : ℚ) / ((F_GC i).sum : ℚ))
      else 1) := by
  have hsc : ∀ j ∈ lengths, scaling_of (N_GC j) (F_GC j) =
      .ok (((N_GC j).sum : ℚ) / ((F_GC j).sum : ℚ)) := by
    intro j hj
    unfold scaling_of
    rw [if_neg (hnz j hj)]
  refine ⟨?_, hsc i hi, ?_⟩
  · unfold get_ratio
    rw [mapM_ok _
      (fun j => (j, ((N_GC j).sum : ℚ) / ((F_GC j).sum : ℚ))) lengths
      (fun j hj => by rw [hsc j hj]; rfl)]
    show Except.ok _ = Except.ok _
    refine congrArg Except.ok (List.map_congr_left ?_)
    intro j hj
    rw [lookup_map_pair (fun j => ((N_GC j).sum : ℚ) / ((F_GC j).sum : ℚ))
      lengths j hj, Option.getD_some]
  · unfold ratio_row
    rw [List.getD_eq_getElem?_getD, List.getElem?_map,
      List.getElem?_range (hlenF ▸ hg), Option.map_some', Option.getD_some]
    apply if_congr _ rfl rfl
    constructor
    · rintro ⟨h1, h2⟩
      exact ⟨Nat.pos_of_ne_zero h1, h2⟩
    · rintro ⟨h1, h2⟩
      exact ⟨Nat.pos_iff_ne_zero.mp h1, h2⟩

set_option maxRecDepth 4000 in
/-- Witness for C7 on a constant table with one fragment length. -/
theorem get_ratio_direct_mode_witness :
    ((100 : ℤ) ∈ [(100 : ℤ)] ∧ (0 : ℕ) < 101 ∧
      ((fun (_ : ℤ) => List.replicate 101 1) (100 : ℤ)).length = 101 ∧
      ((fun (_ : ℤ) => List.replicate 101 2) (100 : ℤ)).length = 101 ∧
      (∀ j ∈ [(100 : ℤ)],
        (((fun (_ : ℤ) => List.replicate 101 2) j).sum : ℚ) ≠ 0)) ∧
    (get_ratio [(100 : ℤ)] (fun _ => List.replicate 101 1)
        (fun _ => List.replicate 101 2) =
      .ok ([(100 : ℤ)].map (fun j =>
        (j, ratio_row (List.replicate 101 1) (List.replicate 101 2)
          (((List.replicate 101 (1 : ℕ)).sum : ℚ) /
            ((List.replicate 101 (2 : ℕ)).sum : ℚ))))) ∧
    scaling_of (List.replicate 101 1) (List.replicate 101 2) =
      .ok (((List.replicate 101 (1 : ℕ)).sum : ℚ) /
        ((List.replicate 101 (2 : ℕ)).sum : ℚ)) ∧
    (ratio_row (List.replicate 101 1) (List.replicate 101 2)
        (((List.replicate 101 (1 : ℕ)).sum : ℚ) /
          ((List.replicate 101 (2 : ℕ)).sum : ℚ))).getD 0 1 =
      (if 0 < (List.replicate 101 (1 : ℕ)).getD 0 0 ∧
          0 < (List.replicate 101 (2 : ℕ)).getD 0 0 then
        ((List.replicate 101 (2 : ℕ)).getD 0 0 : ℚ) /
            ((List.replicate 101 (1 : ℕ)).getD 0 0 : ℚ) *
          (((List.replicate 101 (1 : ℕ)).sum : ℚ) /
            ((List.replicate 101 (2 : ℕ)).sum : ℚ))
      else 1)) :=
  ⟨⟨by decide, by decide, rfl, rfl, by decide⟩,
    get_ratio_direct_mode [(100 : ℤ)] (fun _ => List.replicate 101 1)
      (fun _ => List.replicate 101 2) 100 (by decide) 0 (by decide) rfl rfl
      (by decide)⟩

/-- C9 counterexample: with evaluated Observed rows summing to zero at the
single dense length 30, the scaling loop raises the int conversion error
of the unguarded division instead of falling back to any valid scaling
value: no fallback exists in the source. -/
theorem interpScaling_zero_denominator_errors :
    interpScaling (fun _ => [(5 : ℚ)]) (fun _ => [(0 : ℚ)]) 30 30 =
      .error .intConversion := by
  rfl

/-- C9 amended: the scaling loop computes int(sum of the evaluated
Expected row over sum of the evaluated Observed row) for every dense
length, by an unguarded division; when every denominator is nonzero it
returns these quotients, and a zero denominator is an error, not a
fallback. -/
theorem interpScaling_unguarded_division (N_f2 F_f2 : ℤ → List ℚ)
    (lo hi : ℤ)
    (h : ∀ i ∈ aRange lo (hi + 1) 1, (F_f2 i).sum ≠ 0) :
    interpScaling N_f2 F_f2 lo hi =
      .ok ((aRange lo (hi + 1) 1).map
        (fun i => (i, truncQ ((N_f2 i).sum / (F_f2 i).sum)))) := by
  unfold interpScaling
  apply mapM_ok
  intro i hi
  unfold interpScalingStep
  rw [if_neg (h i hi)]
  rfl

/-- Witness for the C9 amended theorem on concrete nonzero rows. -/
theorem interpScaling_unguarded_division_witness :
    (∀ i ∈ aRange 30 (31 + 1) 1,
      ((fun (_ : ℤ) => [(2 : ℚ), 2]) i).sum ≠ 0) ∧
    interpScaling (fun _ => [(5 : ℚ)]) (fun _ => [(2 : ℚ), 2]) 30 31 =
      .ok ((aRange 30 (31 + 1) 1).map
        (fun i => (i, truncQ (((fun (_ : ℤ) => [(5 : ℚ)]) i).sum /
          ((fun (_ : ℤ) => [(2 : ℚ), 2]) i).sum)))) :=
  ⟨by decide,
    interpScaling_unguarded_division (fun _ => [(5 : ℚ)])
      (fun _ => [(2 : ℚ), 2]) 30 31 (by decide)⟩

/-- Processing one position never changes the histogram lengths. -/
lemma processPosition_lengths (env : WorkerEnv)
    (chromNameBam chromNameBit : String) (fragmentLength : ℤ)
    (st : LoopState) (i : ℤ) :
    (processPosition env chromNameBam chromNameBit fragmentLength st i).sub_n_gc.length =
        st.sub_n_gc.length ∧
    (processPosition env chromNameBam chromNameBit fragmentLength st i).subF_gc.length =
        st.subF_gc.length := by
  unfold processPosition
  cases env.getGC_content chromNameBit i (i + fragmentLength) with
  | none => exact ⟨rfl, rfl⟩
  | some gcFrac =>
      dsimp only
      split
      · exact ⟨rfl, rfl⟩
      · exact ⟨List.length_set _ _ _, List.length_set _ _ _⟩

/-- The position loop never changes the histogram lengths, also when the
boundary guard breaks out early. -/
lemma positionLoop_lengths (env : WorkerEnv)
    (chromNameBam chromNameBit : String) (fragmentLength : ℤ) :
    ∀ (ps : List ℤ) (st : LoopState),
      (positionLoop env chromNameBam chromNameBit fragmentLength st ps).sub_n_gc.length =
          st.sub_n_gc.length ∧
      (positionLoop env chromNameBam chromNameBit fragmentLength st ps).subF_gc.length =
          st.subF_gc.length := by
  intro ps
  induction ps with
  | nil => intro st; exact ⟨rfl, rfl⟩
  | cons i rest ih =>
      intro st
      unfold positionLoop
      split
      · exact ⟨rfl, rfl⟩
      · have h1 := ih (processPosition env chromNameBam chromNameBit fragmentLength st i)
        have h2 := processPosition_lengths env chromNameBam chromNameBit fragmentLength st i
        exact ⟨h1.1.trans h2.1, h1.2.trans h2.2⟩

/-- Shape of the fragment length fold from any accumulator: the key lists
extend by the decimal string keys in order, and every appended histogram
has exactly 101 bins. -/
lemma fragment_fold_shape (env : WorkerEnv) (cfg : Config)
    (chromNameBam chromNameBit : String) (start stop stepSize : ℤ) :
    ∀ (fls : List ℤ) (acc : List (String × List ℕ) × List (String × List ℕ) × ℕ),
      (fls.foldl (fragmentStep env cfg chromNameBam chromNameBit start stop stepSize) acc).1.map
          Prod.fst =
        acc.1.map Prod.fst ++ fls.map (fun L => toString L) ∧
      (fls.foldl (fragmentStep env cfg chromNameBam chromNameBit start stop stepSize) acc).2.1.map
          Prod.fst =
        acc.2.1.map Prod.fst ++ fls.map (fun L => toString L) ∧
      (∀ p ∈ (fls.foldl (fragmentStep env cfg chromNameBam chromNameBit start stop stepSize) acc).1,
        p ∈ acc.1 ∨ p.2.length = 101) ∧
      (∀ p ∈ (fls.foldl (fragmentStep env cfg chromNameBam chromNameBit start stop stepSize) acc).2.1,
        p ∈ acc.2.1 ∨ p.2.length = 101) := by
  intro fls
  induction fls with
  | nil =>
      intro acc
      refine ⟨by simp, by simp, fun p hp => Or.inl hp, fun p hp => Or.inl hp⟩
  | cons L fls ih =>
      intro acc
      rw [List.foldl_cons]
      have hstep :
          (fragmentStep env cfg chromNameBam chromNameBit start stop stepSize acc L).1 =
            acc.1 ++ [(toString L,
              (positionLoop env chromNameBam chromNameBit L
                ⟨List.replicate 101 0, List.replicate 101 0, acc.2.2⟩
                (getPositionsToSample cfg chromNameBit start (stop - L) stepSize)).sub_n_gc)] ∧
          (fragmentStep env cfg chromNameBam chromNameBit start stop stepSize acc L).2.1 =
            acc.2.1 ++ [(toString L,
              (positionLoop env chromNameBam chromNameBit L
                ⟨List.replicate 101 0, List.replicate 101 0, acc.2.2⟩
                (getPositionsToSample cfg chromNameBit start (stop - L) stepSize)).subF_gc)] :=
        ⟨rfl, rfl⟩
      have hlen := positionLoop_lengths env chromNameBam chromNameBit L
        (getPositionsToSample cfg chromNameBit start (stop - L) stepSize)
        ⟨List.replicate 101 0, List.replicate 101 0, acc.2.2⟩
      have ihs := ih (fragmentStep env cfg chromNameBam chromNameBit start stop stepSize acc L)
      refine ⟨?_, ?_, ?_, ?_⟩
      · rw [ihs.1, hstep.1]
        simp
      · rw [ihs.2.1, hstep.2]
        simp
      · intro p hp
        rcases ihs.2.2.1 p hp with hmem | hlen101
        · rw [hstep.1] at hmem
          rcases List.mem_append.mp hmem with hmem | hmem
          · exact Or.inl hmem
          · right
            rcases List.mem_singleton.mp hmem with rfl
            simpa using hlen.1
        · exact Or.inr hlen101
      · intro p hp
        rcases ihs.2.2.2 p hp with hmem | hlen101
        · rw [hstep.2] at hmem
          rcases List.mem_append.mp hmem with hmem | hmem
          · exact Or.inl hmem
          · right
            rcases List.mem_singleton.mp hmem with rfl
            simpa using hlen.2
        · exact Or.inr hlen101

/-- C10: a worker invocation that returns normally returns two tables with
identical key lists, one entry per requested fragment length keyed by its
decimal string form, and every histogram in both tables has exactly 101
GC bin counts (natural numbers, hence nonnegative), including for fragment
lengths whose position loop hit the chromosome length boundary guard. -/
theorem worker_tables_keys_and_bins (env : WorkerEnv) (cfg : Config)
    (chromNameBam : String) (start stop stepSize : ℤ)
    (fragmentLengths : List ℤ) (chrNameBamToBit : String → Option String)
    (nd fd : List (String × List ℕ))
    (h : tabulateGCcontent_worker env cfg chromNameBam start stop stepSize
        fragmentLengths chrNameBamToBit = .ok (nd, fd)) :
    nd.map Prod.fst = fragmentLengths.map (fun L => toString L) ∧
    fd.map Prod.fst = fragmentLengths.map (fun L => toString L) ∧
    (∀ p ∈ nd, p.2.length = 101) ∧
    (∀ p ∈ fd, p.2.length = 101) := by
  unfold tabulateGCcontent_worker at h
  split at h
  · exact absurd h (by simp)
  · split at h
    · exact absurd h (by simp)
    · rename_i chromNameBit heq
      have hpair := Except.ok.inj h
      have hnd : nd = (tabulateGCcontent_worker_core env cfg chromNameBam
          chromNameBit start stop stepSize fragmentLengths).1 :=
        (congrArg Prod.fst hpair).symm
      have hfd : fd = (tabulateGCcontent_worker_core env cfg chromNameBam
          chromNameBit start stop stepSize fragmentLengths).2.1 :=
        (congrArg Prod.snd hpair).symm
      have hshape := fragment_fold_shape env cfg chromNameBam chromNameBit
        start stop stepSize fragmentLengths ([], [], 0)
      unfold tabulateGCcontent_worker_core at hnd hfd
      refine ⟨?_, ?_, ?_, ?_⟩
      · rw [hnd, hshape.1]; rfl
      · rw [hfd, hshape.2.1]; rfl
      · intro p hp
        rcases hshape.2.2.1 p (hnd ▸ hp) with hmem | h101
        · exact absurd hmem (List.not_mem_nil p)
        · exact h101
      · intro p hp
        rcases hshape.2.2.2 p (hfd ▸ hp) with hmem | h101
        · exact absurd hmem (List.not_mem_nil p)
        · exact h101

/-- Worker environment for the C10 witness: empty alignments, zero GC
fraction everywhere. -/
def demoEnvC10 : WorkerEnv :=
  ⟨fun _ => 1000, fun _ _ _ => some 0, fun _ _ _ => [], fun _ _ => false,
    fun _ => 5⟩

/-- Witness for C10 on a concrete worker invocation over positions 0 to 20
with fragment lengths 3 and 5. -/
theorem worker_tables_keys_and_bins_witness :
    tabulateGCcontent_worker demoEnvC10 ⟨none, none⟩ "2L" 0 20 2 [3, 5]
        (fun _ => some "chr2L") =
      .ok ((workerResult demoEnvC10 ⟨none, none⟩ 2 [3, 5]
              (fun _ => some "chr2L") ⟨"2L", 0, 20⟩).1,
           (workerResult demoEnvC10 ⟨none, none⟩ 2 [3, 5]
              (fun _ => some "chr2L") ⟨"2L", 0, 20⟩).2) ∧
    ((workerResult demoEnvC10 ⟨none, none⟩ 2 [3, 5]
        (fun _ => some "chr2L") ⟨"2L", 0, 20⟩).1.map Prod.fst =
      [(3 : ℤ), 5].map (fun L => toString L) ∧
    (workerResult demoEnvC10 ⟨none, none⟩ 2 [3, 5]
        (fun _ => some "chr2L") ⟨"2L", 0, 20⟩).2.map Prod.fst =
      [(3 : ℤ), 5].map (fun L => toString L) ∧
    (∀ p ∈ (workerResult demoEnvC10 ⟨none, none⟩ 2 [3, 5]
        (fun _ => some "chr2L") ⟨"2L", 0, 20⟩).1, p.2.length = 101) ∧
    (∀ p ∈ (workerResult demoEnvC10 ⟨none, none⟩ 2 [3, 5]
        (fun _ => some "chr2L") ⟨"2L", 0, 20⟩).2, p.2.length = 101)) :=
  ⟨rfl,
    worker_tables_keys_and_bins demoEnvC10 ⟨none, none⟩ "2L" 0 20 2 [3, 5]
      (fun _ => some "chr2L") _ _ rfl⟩

end ComputeGCBias
